import Mathlib

/-!
Verification of the duplicate-resolution algorithm in `dedup.py` (`run`).

The embedding models:
  * input lines and the regular expression `(?P<hash>\w+) \((?P<path>.*)\)$`
    matched with `re.match` (anchored at the start; `$` matches at the end
    of the string or just before one trailing newline; `.` never matches a
    newline);
  * `PurePath` values as their component lists (`parts`), with `name`,
    `parents[0].match('Sent')` and the `/` operator;
  * the grouping `defaultdict(list)` as an association list preserving key
    insertion order and per-key input order;
  * the two stable single-key sorts (`list.sort` is stable; an insertion
    sort with a non-strict total preorder computes the same stable sort);
  * the filesystem as the finite set of paths of existing regular files,
    `os.path.isfile` as membership and `os.rename` as erase-then-insert;
  * the log as a list of (severity, message) pairs, with messages carried
    structurally rather than as formatted strings.
-/

namespace Dedup

/-- A filesystem path as the list of its components, the `parts` of a
Python `PurePath`. -/
abbrev Path : Type := List String

/-- Splitting of a character list at `/` separators. -/
def splitSlash : List Char → List (List Char)
  | [] => [[]]
  | c :: cs =>
    if c = '/' then [] :: splitSlash cs
    else
      match splitSlash cs with
      | [] => [[c]]
      | g :: gs => (c :: g) :: gs

/-- Conversion of a path string to its components: split on `/` and drop
empty and `.` components, as `PurePath` normalisation does for relative
paths. -/
def parsePath (s : String) : Path :=
  ((splitSlash s.data).map (fun g => String.mk g)).filter
    (fun c => c != "" && c != ".")

/-- The `name` attribute of a `PurePath`: its last component, or the empty
string for a path with no components. -/
def nameOf (p : Path) : String := p.getLast?.getD ""

/-- The test `p.parents[0].match('Sent')`: the pattern `Sent` has a single
component and no wildcard characters, so it holds exactly when the last
component of `p.parents[0]` (the immediate parent directory) is the literal
string `Sent`. -/
def inSent (p : Path) : Bool := p.dropLast.getLast? == some "Sent"

/-- Lexicographic comparison of character lists by code point, the order
Python uses on strings. -/
def charsLe : List Char → List Char → Bool
  | [], _ => true
  | _ :: _, [] => false
  | a :: as, b :: bs =>
    if a.toNat < b.toNat then true
    else if a.toNat = b.toNat then charsLe as bs
    else false

/-- Comparison of two strings by code-point lexicographic order. -/
def strLe (s t : String) : Bool := charsLe s.data t.data

/-- The key preorder of the first sort, `paths.sort(key=lambda p: p.name)`:
comparison of base names by the code-point lexicographic order on strings. -/
def nameLe (p q : Path) : Prop := strLe (nameOf p) (nameOf q) = true

instance : DecidableRel nameLe := fun p q =>
  inferInstanceAs (Decidable (strLe (nameOf p) (nameOf q) = true))

/-- The key preorder of the second sort,
`paths.sort(key=lambda p: p.parents[0].match('Sent'))`: Boolean keys
compared with `False < True`. -/
def sentLe (p q : Path) : Prop := (!inSent p || inSent q) = true

instance : DecidableRel sentLe := fun p q =>
  inferInstanceAs (Decidable ((!inSent p || inSent q) = true))

/-- The compound sort of `run` lines 34-37: a stable sort by name followed
by a stable sort by the Sent key. -/
def sortGroup (paths : List Path) : List Path :=
  List.insertionSort sentLe (List.insertionSort nameLe paths)

/-- The keeper of a group: `paths[0]` after the compound sort. -/
def keeperOf (paths : List Path) : Path := (sortGroup paths).headI

/-- The drop list of a group: `paths[1:]` after the compound sort. -/
def dropsOf (paths : List Path) : List Path := (sortGroup paths).tail

/-- The warning condition of `run` lines 52-53: the keeper lies in a `Sent`
directory and some dropped member does not. -/
def groupWarn (paths : List Path) : Bool :=
  inSent (keeperOf paths) && (dropsOf paths).any (fun p => !inSent p)

/-- Log severities used by `run`. -/
inductive Sev
  | info
  | warning
  | error
deriving DecidableEq, Repr

/-- Log messages of `run`, carried structurally: the Boolean records which
message template (normal or dry-run) was used. -/
inductive Msg
  | invalidInput (lineNum : Nat) (line : String)
  | keepAnn (dryRun : Bool) (hash : String) (keep : Path)
  | dropAnn (dryRun : Bool) (hash : String) (drops : List Path)
  | invalidPath (full : Path)
  | removing (full : Path)
  | moving (full : Path) (dest : Path)
deriving DecidableEq, Repr

/-- A log entry: severity paired with the message. -/
abbrev Entry := Sev × Msg

/-- The filesystem: the set of full paths of existing regular files,
carried as a list (membership is what matters). -/
abbrev FS := List Path

/-- Removal of a path from the filesystem. -/
def fsRemove (full : Path) (fs : FS) : FS := fs.filter (fun q => q != full)

/-- Creation of a path in the filesystem (a no-op when it already
exists). -/
def fsInsert (full : Path) (fs : FS) : FS :=
  if full ∈ fs then fs else fs ++ [full]

/-- Severity of the keep/drop announcement of a group (lines 55-60). -/
def annSev (paths : List Path) : Sev :=
  if groupWarn paths then Sev.warning else Sev.info

/-- The keep/drop announcement entries of a group (lines 39-44 select the
template; lines 55-60 emit both messages at the same severity). -/
def groupAnnounce (dry : Bool) (hash : String) (paths : List Path) : List Entry :=
  [(annSev paths, Msg.keepAnn dry hash (keeperOf paths)),
   (annSev paths, Msg.dropAnn dry hash (dropsOf paths))]

/-- The validation loop of lines 62-67: the first drop candidate whose
resolved path is not an existing regular file, if any. -/
def firstInvalid (drops : List Path) (sd : Path) (fs : FS) : Option Path :=
  drops.find? (fun p => !(decide ((sd ++ p) ∈ fs)))

/-- Effect of `rename(full_path, move_path)` for one drop candidate
(lines 78-80): the source path disappears and the destination path exists,
with the native overwrite behaviour on collisions. -/
def moveStep (sd md : Path) (fs : FS) (p : Path) : FS :=
  fsInsert (md ++ [nameOf p]) (fsRemove (sd ++ p) fs)

/-- The filesystem after the move loop over a drop list. -/
def moveFold (drops : List Path) (sd md : Path) (fs : FS) : FS :=
  drops.foldl (moveStep sd md) fs

/-- Validation and disposal for one group (lines 62-80): validate every
drop candidate, then stop if dry-run, then either log `Removing` for each
candidate (no filesystem call is made in this branch) or move each
candidate to the move directory under its base name.  Returns the early
return code (if any), the new filesystem, and the emitted log entries. -/
def groupDispose (paths : List Path) (dry : Bool) (sd : Path) (md : Option Path)
    (fs : FS) : Option Nat × FS × List Entry :=
  match firstInvalid (dropsOf paths) sd fs with
  | some p => (some 4, fs, [(Sev.error, Msg.invalidPath (sd ++ p))])
  | none =>
    if dry then (none, fs, [])
    else
      match md with
      | none =>
        (none, fs, (dropsOf paths).map (fun p => (Sev.info, Msg.removing (sd ++ p))))
      | some mdir =>
        (none, moveFold (dropsOf paths) sd mdir fs,
         (dropsOf paths).map
           (fun p => (Sev.info, Msg.moving (sd ++ p) (mdir ++ [nameOf p]))))

/-- Processing of one duplicate group (lines 34-80): sort, announce the
keep/drop decision, then validate and dispose.  The return code and the
filesystem come from `groupDispose` alone; the announcement only prepends
log entries. -/
def processGroup (hash : String) (paths : List Path) (dry : Bool) (sd : Path)
    (md : Option Path) (fs : FS) : Option Nat × FS × List Entry :=
  ((groupDispose paths dry sd md fs).1,
   (groupDispose paths dry sd md fs).2.1,
   groupAnnounce dry hash paths ++ (groupDispose paths dry sd md fs).2.2)

/-- The group loop of `run` (line 29): groups of size one are skipped; a
group returning an error code aborts the whole run at that point. -/
def processGroups : List (String × List Path) → Bool → Path → Option Path → FS →
    List Entry → Option Nat × FS × List Entry
  | [], _, _, _, fs, log => (none, fs, log)
  | (h, paths) :: rest, dry, sd, md, fs, log =>
    if paths.length == 1 then
      processGroups rest dry sd md fs log
    else
      match (processGroup h paths dry sd md fs).1 with
      | some code =>
        (some code, (processGroup h paths dry sd md fs).2.1,
         log ++ (processGroup h paths dry sd md fs).2.2)
      | none =>
        processGroups rest dry sd md (processGroup h paths dry sd md fs).2.1
          (log ++ (processGroup h paths dry sd md fs).2.2)

/-- A word character of the regular expression class `\w`. -/
def isWordChar (c : Char) : Bool := c.isAlphanum || c == '_'

/-- Model of `re.match(r"(?P<hash>\w+) \((?P<path>.*)\)$", line)` as the
captured (hash, path) pair: anchored at the start, the hash is the maximal
nonempty run of word characters (the following literal is a space, never a
word character, so no shorter run can match), then a space and an opening
parenthesis, and greedy `.*` followed by `\)$` forces the closing
parenthesis to be the last character once a single trailing newline is set
aside, with no newline anywhere in the matched region. -/
def parseLine (line : String) : Option (String × String) :=
  let cs := line.data
  let cs := if cs.getLast? == some '\n' then cs.dropLast else cs
  let h := cs.takeWhile isWordChar
  let rest := cs.dropWhile isWordChar
  if h.isEmpty then none
  else
    match rest with
    | ' ' :: '(' :: rest2 =>
      if rest2.getLast? == some ')' && !(rest2.dropLast.contains '\n') then
        some (String.mk h, String.mk rest2.dropLast)
      else none
    | _ => none

/-- The parse loop of `run` lines 21-27: parse every line, recording the
1-based number and content of the first non-matching line as the error. -/
def parseAll : Nat → List String → Except (Nat × String) (List (String × Path))
  | _, [] => Except.ok []
  | n, l :: ls =>
    match parseLine l with
    | none => Except.error (n, l)
    | some (h, p) =>
      match parseAll (n + 1) ls with
      | Except.error e => Except.error e
      | Except.ok recs => Except.ok ((h, parsePath p) :: recs)

/-- One step of `files[hash].append(path)` on a `defaultdict(list)` viewed
as an association list: keys keep first-insertion order, values keep
append order. -/
def addRecord (groups : List (String × List Path)) (h : String) (p : Path) :
    List (String × List Path) :=
  match groups with
  | [] => [(h, [p])]
  | (k, ps) :: rest =>
    if k == h then (k, ps ++ [p]) :: rest else (k, ps) :: addRecord rest h p

/-- The grouping pass of `run` lines 19-27. -/
def groupsOf (recs : List (String × Path)) : List (String × List Path) :=
  recs.foldl (fun gs r => addRecord gs r.1 r.2) []

/-- The whole of `run`: parse all lines (aborting with code 3 on the first
bad line), group by hash, then process the groups in key insertion order.
Returns the Python return value (`none` for falling off the end), the
final filesystem, and the log. -/
def run (input : List String) (dry_run : Bool) (source_dir : Path)
    (move_dir : Option Path) (fs : FS) : Option Nat × FS × List Entry :=
  match parseAll 1 input with
  | Except.error (n, l) => (some 3, fs, [(Sev.error, Msg.invalidInput n l)])
  | Except.ok recs => processGroups (groupsOf recs) dry_run source_dir move_dir fs []

/-! ### Properties of the sort keys -/

theorem charsLe_total : ∀ a b : List Char, charsLe a b = true ∨ charsLe b a = true
  | [], _ => Or.inl rfl
  | _ :: _, [] => Or.inr rfl
  | a :: as, b :: bs => by
    rcases Nat.lt_trichotomy a.toNat b.toNat with h | h | h
    · exact Or.inl (by simp [charsLe, h])
    · rcases charsLe_total as bs with h' | h'
      · exact Or.inl (by simp [charsLe, h, h'])
      · exact Or.inr (by simp [charsLe, h.symm, h'])
    · exact Or.inr (by simp [charsLe, h, Nat.ne_of_gt h, Nat.lt_asymm h])

theorem charsLe_trans : ∀ a b c : List Char,
    charsLe a b = true → charsLe b c = true → charsLe a c = true
  | [], _, _, _, _ => rfl
  | _ :: _, [], _, h, _ => by simp [charsLe] at h
  | _ :: _, _ :: _, [], _, h' => by simp [charsLe] at h'
  | a :: as, b :: bs, c :: cs, h, h' => by
    by_cases hab : a.toNat < b.toNat <;> by_cases hbc : b.toNat < c.toNat <;>
      by_cases hab' : a.toNat = b.toNat <;> by_cases hbc' : b.toNat = c.toNat <;>
      simp [charsLe, hab, hbc, hab', hbc'] at h h' ⊢ <;>
      first
        | exact charsLe_trans as bs cs h h'
        | omega

instance : IsTotal Path nameLe :=
  ⟨fun p q => charsLe_total (nameOf p).data (nameOf q).data⟩

instance : IsTrans Path nameLe :=
  ⟨fun _ _ _ h h' => charsLe_trans _ _ _ h h'⟩

theorem sortGroup_perm (l : List Path) : List.Perm (sortGroup l) l :=
  (List.perm_insertionSort sentLe _).trans (List.perm_insertionSort nameLe l)

theorem orderedInsert_not_sent (a : Path) (ha : inSent a = false) :
    ∀ m : List Path, List.orderedInsert sentLe a m = a :: m
  | [] => rfl
  | b :: m => by
    have h : sentLe a b := by simp [sentLe, ha]
    simp [List.orderedInsert, if_pos h]

theorem orderedInsert_sent (a : Path) (ha : inSent a = true) :
    ∀ (F T : List Path), (∀ p ∈ F, inSent p = false) → (∀ p ∈ T, inSent p = true) →
      List.orderedInsert sentLe a (F ++ T) = F ++ a :: T
  | [], [], _, _ => rfl
  | [], b :: T, _, hT => by
    have h : sentLe a b := by simp [sentLe, hT b (by simp)]
    simp [List.orderedInsert, if_pos h]
  | f :: F, T, hF, hT => by
    have hf : inSent f = false := hF f (by simp)
    have h : ¬ sentLe a f := by simp [sentLe, ha, hf]
    simp only [List.cons_append, List.orderedInsert, if_neg h, List.append_eq]
    rw [orderedInsert_sent a ha F T (fun p hp => hF p (by simp [hp])) hT]

theorem sentSort_partition : ∀ m : List Path,
    List.insertionSort sentLe m
      = m.filter (fun p => !inSent p) ++ m.filter (fun p => inSent p)
  | [] => rfl
  | a :: m => by
    have hmem₁ : ∀ p ∈ m.filter (fun p => !inSent p), inSent p = false := by
      intro p hp
      have := (List.mem_filter.mp hp).2
      simpa using this
    have hmem₂ : ∀ p ∈ m.filter (fun p => inSent p), inSent p = true := by
      intro p hp
      exact (List.mem_filter.mp hp).2
    show List.orderedInsert sentLe a (List.insertionSort sentLe m) = _
    rw [sentSort_partition m]
    by_cases ha : inSent a = true
    · rw [orderedInsert_sent a ha _ _ hmem₁ hmem₂]
      simp [List.filter, ha]
    · have ha' : inSent a = false := by simpa using ha
      rw [orderedInsert_not_sent a ha']
      simp [List.filter, ha']

/-- The compound sort is the stable partition of the name-sorted group:
members outside `Sent` directories first, members inside `Sent` last, the
name order preserved inside each block. -/
theorem sortGroup_partition (l : List Path) :
    sortGroup l
      = (List.insertionSort nameLe l).filter (fun p => !inSent p)
        ++ (List.insertionSort nameLe l).filter (fun p => inSent p) :=
  sentSort_partition (List.insertionSort nameLe l)

/-- The warning of lines 50-60 is unreachable: the sort puts a `Sent`
member first only when every member is in `Sent`. -/
theorem groupWarn_eq_false (l : List Path) : groupWarn l = false := by
  have hpart := sortGroup_partition l
  rcases hF : (List.insertionSort nameLe l).filter (fun p => !inSent p) with _ | ⟨f, F⟩
  · rw [hF, List.nil_append] at hpart
    have hall : ∀ p ∈ sortGroup l, inSent p = true := by
      intro p hp
      rw [hpart] at hp
      exact (List.mem_filter.mp hp).2
    have hdrop : (dropsOf l).any (fun p => !inSent p) = false := by
      rw [List.any_eq_false]
      intro p hp
      have : p ∈ sortGroup l := (List.tail_sublist _).subset hp
      simp [hall p this]
    rw [groupWarn, hdrop, Bool.and_false]
  · have hf : inSent f = false := by
      have : f ∈ (List.insertionSort nameLe l).filter (fun p => !inSent p) := by
        rw [hF]; simp
      simpa using (List.mem_filter.mp this).2
    have hkeep : keeperOf l = f := by
      rw [keeperOf, hpart, hF]
      rfl
    rw [groupWarn, hkeep, hf, Bool.false_and]

/-! ### Equation lemmas for the disposal phase -/

theorem groupDispose_eq_invalid {paths : List Path} {sd : Path} {fs : FS} {p : Path}
    (dry : Bool) (md : Option Path)
    (hfi : firstInvalid (dropsOf paths) sd fs = some p) :
    groupDispose paths dry sd md fs
      = (some 4, fs, [(Sev.error, Msg.invalidPath (sd ++ p))]) := by
  rw [groupDispose.eq_def, hfi]

theorem groupDispose_eq_valid {paths : List Path} {sd : Path} {fs : FS}
    (dry : Bool) (md : Option Path)
    (hfi : firstInvalid (dropsOf paths) sd fs = none) :
    groupDispose paths dry sd md fs
      = if dry then (none, fs, ([] : List Entry))
        else
          match md with
          | none =>
            (none, fs, (dropsOf paths).map (fun p => (Sev.info, Msg.removing (sd ++ p))))
          | some mdir =>
            (none, moveFold (dropsOf paths) sd mdir fs,
             (dropsOf paths).map
               (fun p => (Sev.info, Msg.moving (sd ++ p) (mdir ++ [nameOf p])))) := by
  rw [groupDispose.eq_def, hfi]

/-! ### Filesystem preservation lemmas -/

theorem groupDispose_dry_fs (paths : List Path) (sd : Path) (md : Option Path)
    (fs : FS) : (groupDispose paths true sd md fs).2.1 = fs := by
  cases hfi : firstInvalid (dropsOf paths) sd fs with
  | some p => rw [groupDispose_eq_invalid true md hfi]
  | none => rw [groupDispose_eq_valid true md hfi]; rfl

theorem processGroups_dry_fs (gs : List (String × List Path)) (sd : Path)
    (md : Option Path) (fs : FS) (log : List Entry) :
    (processGroups gs true sd md fs log).2.1 = fs := by
  induction gs generalizing log with
  | nil => rfl
  | cons g rest ih =>
    obtain ⟨h, paths⟩ := g
    rw [processGroups]
    by_cases hlen : (paths.length == 1) = true
    · rw [if_pos hlen]; exact ih log
    · rw [if_neg hlen]
      have hfs : (processGroup h paths true sd md fs).2.1 = fs :=
        groupDispose_dry_fs paths sd md fs
      cases hc : (processGroup h paths true sd md fs).1 with
      | some code => exact hfs
      | none =>
        show (processGroups rest true sd md
          (processGroup h paths true sd md fs).2.1 _).2.1 = fs
        rw [hfs]
        exact ih _

theorem groupDispose_delete_fs (paths : List Path) (dry : Bool) (sd : Path)
    (fs : FS) : (groupDispose paths dry sd none fs).2.1 = fs := by
  cases hfi : firstInvalid (dropsOf paths) sd fs with
  | some p => rw [groupDispose_eq_invalid dry none hfi]
  | none => rw [groupDispose_eq_valid dry none hfi]; cases dry <;> rfl

theorem processGroups_delete_fs (gs : List (String × List Path)) (dry : Bool)
    (sd : Path) (fs : FS) (log : List Entry) :
    (processGroups gs dry sd none fs log).2.1 = fs := by
  induction gs generalizing log with
  | nil => rfl
  | cons g rest ih =>
    obtain ⟨h, paths⟩ := g
    rw [processGroups]
    by_cases hlen : (paths.length == 1) = true
    · rw [if_pos hlen]; exact ih log
    · rw [if_neg hlen]
      have hfs : (processGroup h paths dry sd none fs).2.1 = fs :=
        groupDispose_delete_fs paths dry sd fs
      cases hc : (processGroup h paths dry sd none fs).1 with
      | some code => exact hfs
      | none =>
        show (processGroups rest dry sd none
          (processGroup h paths dry sd none fs).2.1 _).2.1 = fs
        rw [hfs]
        exact ih _

/-! ### Severity lemmas -/

theorem annSev_eq_info (l : List Path) : annSev l = Sev.info := by
  rw [annSev, groupWarn_eq_false]
  rfl

theorem processGroup_sev (h : String) (paths : List Path) (dry : Bool) (sd : Path)
    (md : Option Path) (fs : FS) :
    ∀ e ∈ (processGroup h paths dry sd md fs).2.2,
      e.1 = Sev.info ∨ e.1 = Sev.error := by
  intro e he
  rw [processGroup] at he
  simp only [List.mem_append] at he
  rcases he with he | he
  · rw [groupAnnounce, annSev_eq_info] at he
    simp only [List.mem_cons, List.not_mem_nil, or_false] at he
    rcases he with he | he <;> (rw [he]; left; rfl)
  · cases hfi : firstInvalid (dropsOf paths) sd fs with
    | some p =>
      rw [groupDispose_eq_invalid dry md hfi] at he
      simp only [List.mem_singleton] at he
      right; rw [he]
    | none =>
      rw [groupDispose_eq_valid dry md hfi] at he
      cases dry with
      | true => simp at he
      | false =>
        cases md with
        | none =>
          simp only [if_false, Bool.false_eq_true] at he
          simp only [List.mem_map] at he
          obtain ⟨p, _, hp⟩ := he
          left; rw [← hp]
        | some mdir =>
          simp only [if_false, Bool.false_eq_true] at he
          simp only [List.mem_map] at he
          obtain ⟨p, _, hp⟩ := he
          left; rw [← hp]

theorem processGroups_sev (gs : List (String × List Path)) (dry : Bool) (sd : Path)
    (md : Option Path) (fs : FS) (log : List Entry) :
    ∀ e ∈ (processGroups gs dry sd md fs log).2.2,
      e ∈ log ∨ e.1 = Sev.info ∨ e.1 = Sev.error := by
  induction gs generalizing fs log with
  | nil => intro e he; exact Or.inl he
  | cons g rest ih =>
    obtain ⟨h, paths⟩ := g
    intro e he
    rw [processGroups] at he
    by_cases hlen : (paths.length == 1) = true
    · rw [if_pos hlen] at he; exact ih fs log e he
    · rw [if_neg hlen] at he
      cases hc : (processGroup h paths dry sd md fs).1 with
      | some code =>
        rw [hc] at he
        simp only [List.mem_append] at he
        rcases he with he | he
        · exact Or.inl he
        · exact Or.inr (processGroup_sev h paths dry sd md fs e he)
      | none =>
        rw [hc] at he
        rcases ih _ _ e he with hmem | hsev
        · simp only [List.mem_append] at hmem
          rcases hmem with hmem | hmem
          · exact Or.inl hmem
          · exact Or.inr (processGroup_sev h paths dry sd md fs e hmem)
        · exact Or.inr hsev

theorem run_sev (input : List String) (dry : Bool) (sd : Path) (md : Option Path)
    (fs : FS) : ∀ e ∈ (run input dry sd md fs).2.2,
      e.1 = Sev.info ∨ e.1 = Sev.error := by
  intro e he
  rw [run] at he
  cases hp : parseAll 1 input with
  | error nl =>
    obtain ⟨n, l⟩ := nl
    rw [hp] at he
    simp only [List.mem_singleton] at he
    right; rw [he]
  | ok recs =>
    rw [hp] at he
    rcases processGroups_sev (groupsOf recs) dry sd md fs [] e he with hmem | hsev
    · cases hmem
    · exact hsev

/-! ### Validation-abort lemmas -/

theorem firstInvalid_of_exists {drops : List Path} {sd : Path} {fs : FS}
    (h : ∃ p ∈ drops, (sd ++ p) ∉ fs) :
    ∃ q, firstInvalid drops sd fs = some q ∧ q ∈ drops ∧ (sd ++ q) ∉ fs := by
  induction drops with
  | nil => obtain ⟨p, hp, _⟩ := h; cases hp
  | cons d ds ih =>
    by_cases hd : (sd ++ d) ∈ fs
    · have hds : ∃ p ∈ ds, (sd ++ p) ∉ fs := by
        obtain ⟨p, hp, hnp⟩ := h
        rcases List.mem_cons.mp hp with rfl | hp'
        · exact absurd hd hnp
        · exact ⟨p, hp', hnp⟩
      obtain ⟨q, hq, hqm, hqn⟩ := ih hds
      refine ⟨q, ?_, List.mem_cons_of_mem d hqm, hqn⟩
      rw [firstInvalid] at hq ⊢
      rw [List.find?_cons_of_neg _ (by simp [hd])]
      exact hq
    · refine ⟨d, ?_, List.mem_cons_self d ds, hd⟩
      rw [firstInvalid]
      exact List.find?_cons_of_pos _ (by simp [hd])

theorem processGroups_skip (h : String) (paths : List Path)
    (rest : List (String × List Path)) (dry : Bool) (sd : Path) (md : Option Path)
    (fs : FS) (log : List Entry) (hlen : paths.length = 1) :
    processGroups ((h, paths) :: rest) dry sd md fs log
      = processGroups rest dry sd md fs log := by
  rw [processGroups, if_pos (by simp [hlen])]

theorem processGroups_abort (h : String) (paths : List Path)
    (rest : List (String × List Path)) (dry : Bool) (sd : Path) (md : Option Path)
    (fs : FS) (log : List Entry) (hlen : paths.length ≠ 1)
    (hinv : ∃ p ∈ dropsOf paths, (sd ++ p) ∉ fs) :
    ∃ q, q ∈ dropsOf paths ∧ (sd ++ q) ∉ fs ∧
      processGroups ((h, paths) :: rest) dry sd md fs log
        = (some 4, fs,
           log ++ (groupAnnounce dry h paths
             ++ [(Sev.error, Msg.invalidPath (sd ++ q))])) := by
  obtain ⟨q, hq, hqm, hqn⟩ := firstInvalid_of_exists hinv
  refine ⟨q, hqm, hqn, ?_⟩
  have hpg : processGroup h paths dry sd md fs
      = (some 4, fs, groupAnnounce dry h paths
          ++ [(Sev.error, Msg.invalidPath (sd ++ q))]) := by
    rw [processGroup, groupDispose_eq_invalid dry md hq]
  rw [processGroups, if_neg (by simp [hlen]), hpg]

/-! ### Parse-error lemmas -/

theorem parseAll_first_error : ∀ (ls : List String) (k : Nat),
    (∃ l ∈ ls, parseLine l = none) →
    ∃ i line, ls[i]? = some line ∧ parseLine line = none ∧
      parseAll k ls = Except.error (k + i, line)
  | [], _, h => by obtain ⟨l, hl, _⟩ := h; cases hl
  | l :: ls, k, h => by
    cases hpl : parseLine l with
    | none =>
      exact ⟨0, l, by simp, hpl, by rw [parseAll, hpl]; simp⟩
    | some pr =>
      have hls : ∃ l' ∈ ls, parseLine l' = none := by
        obtain ⟨l', hl', hn⟩ := h
        rcases List.mem_cons.mp hl' with rfl | hl''
        · rw [hpl] at hn; cases hn
        · exact ⟨l', hl'', hn⟩
      obtain ⟨i, line, hi, hbad, heq⟩ := parseAll_first_error ls (k + 1) hls
      refine ⟨i + 1, line, by simpa using hi, hbad, ?_⟩
      obtain ⟨hh, pp⟩ := pr
      rw [parseAll, hpl, heq]
      have : k + 1 + i = k + (i + 1) := by omega
      rw [this]

/-! ### Move lemmas -/

theorem mem_fsRemove {x y : Path} {fs : FS} :
    x ∈ fsRemove y fs ↔ x ∈ fs ∧ x ≠ y := by
  rw [fsRemove]
  simp [List.mem_filter]

theorem mem_fsInsert {x y : Path} {fs : FS} :
    x ∈ fsInsert y fs ↔ x = y ∨ x ∈ fs := by
  rw [fsInsert]
  by_cases hy : y ∈ fs
  · rw [if_pos hy]
    constructor
    · exact Or.inr
    · rintro (rfl | hx)
      · exact hy
      · exact hx
  · rw [if_neg hy]
    simp [List.mem_append, or_comm]

theorem moveFold_not_mem_of_absent {sd md : Path} {p : Path} :
    ∀ (ds : List Path) (fs : FS), (sd ++ p) ∉ fs →
      (∀ q ∈ ds, md ++ [nameOf q] ≠ sd ++ p) → (sd ++ p) ∉ moveFold ds sd md fs
  | [], _, habs, _ => habs
  | d :: ds, fs, habs, hne => by
    rw [moveFold, List.foldl_cons]
    refine moveFold_not_mem_of_absent ds (moveStep sd md fs d) ?_
      (fun q hq => hne q (List.mem_cons_of_mem d hq))
    rw [moveStep]
    intro hmem
    rcases mem_fsInsert.mp hmem with heq | hmem'
    · exact hne d (List.mem_cons_self d ds) heq.symm
    · exact habs (mem_fsRemove.mp hmem').1

theorem moveFold_not_mem {sd md : Path} {p : Path} :
    ∀ (ds : List Path) (fs : FS), p ∈ ds →
      (∀ q ∈ ds, md ++ [nameOf q] ≠ sd ++ p) → (sd ++ p) ∉ moveFold ds sd md fs
  | [], _, hmem, _ => absurd hmem (List.not_mem_nil p)
  | d :: ds, fs, hmem, hne => by
    rw [moveFold, List.foldl_cons]
    by_cases hdp : d = p
    · subst hdp
      refine moveFold_not_mem_of_absent ds (moveStep sd md fs d) ?_
        (fun q hq => hne q (List.mem_cons_of_mem d hq))
      rw [moveStep]
      intro hmem'
      rcases mem_fsInsert.mp hmem' with heq | hmem''
      · exact hne d (List.mem_cons_self d ds) heq.symm
      · exact (mem_fsRemove.mp hmem'').2 rfl
    · have hp' : p ∈ ds := by
        rcases List.mem_cons.mp hmem with rfl | hp'
        · exact absurd rfl hdp
        · exact hp'
      exact moveFold_not_mem ds (moveStep sd md fs d) hp'
        (fun q hq => hne q (List.mem_cons_of_mem d hq))

/-! ### Claim theorems -/

/-- C1 counterexample: for the group {Sent/photo.jpg, Inbox/photo (1).jpg}
the compound sort puts the `Sent` member last, not first, and the selected
keeper is not `Sent/photo.jpg`. -/
theorem C1_counterexample :
    sortGroup [parsePath "Sent/photo.jpg", parsePath "Inbox/photo (1).jpg"]
      = [parsePath "Inbox/photo (1).jpg", parsePath "Sent/photo.jpg"] ∧
    keeperOf [parsePath "Sent/photo.jpg", parsePath "Inbox/photo (1).jpg"]
      ≠ parsePath "Sent/photo.jpg" := by
  decide

/-- C1 (amended): the compound sort orders members whose immediate parent
directory is NOT named `Sent` before all members whose immediate parent is
`Sent`, preserving ascending base-name order within each partition
(Python's `False < True` on the Boolean sort key); element 0 of that order
is the keeper, so for the group {Sent/photo.jpg, Inbox/photo (1).jpg} the
keeper is `Inbox/photo (1).jpg`. -/
theorem C1_sort_policy :
    (∀ l : List Path,
      sortGroup l
        = (List.insertionSort nameLe l).filter (fun p => !inSent p)
          ++ (List.insertionSort nameLe l).filter (fun p => inSent p) ∧
      List.Sorted nameLe
        ((List.insertionSort nameLe l).filter (fun p => !inSent p)) ∧
      List.Sorted nameLe
        ((List.insertionSort nameLe l).filter (fun p => inSent p)) ∧
      keeperOf l = (sortGroup l).headI) ∧
    keeperOf [parsePath "Sent/photo.jpg", parsePath "Inbox/photo (1).jpg"]
      = parsePath "Inbox/photo (1).jpg" := by
  refine ⟨fun l => ⟨sortGroup_partition l, ?_, ?_, rfl⟩, by decide⟩
  · exact (List.sorted_insertionSort nameLe l).filter _
  · exact (List.sorted_insertionSort nameLe l).filter _

/-- C2: in delete mode (`move_dir is None`, not dry-run) the code only
logs `Removing '...'` and performs no filesystem call, so the filesystem
is unchanged by any run with no move directory, and in the concrete
scenario the validated drop `Inbox/b.jpg` still exists after a successful
run although the log said it was being removed. -/
theorem C2_delete_mode_is_noop :
    (∀ input dry sd fs, (run input dry sd none fs).2.1 = fs) ∧
    run ["aa (Inbox/b.jpg)", "aa (Inbox/a.jpg)"] false [] none
        [["Inbox", "a.jpg"], ["Inbox", "b.jpg"]]
      = (none, [["Inbox", "a.jpg"], ["Inbox", "b.jpg"]],
         [(Sev.info, Msg.keepAnn false "aa" ["Inbox", "a.jpg"]),
          (Sev.info, Msg.dropAnn false "aa" [["Inbox", "b.jpg"]]),
          (Sev.info, Msg.removing ["Inbox", "b.jpg"])]) := by
  constructor
  · intro input dry sd fs
    rw [run.eq_def]
    cases hp : parseAll 1 input with
    | error nl => obtain ⟨n, l⟩ := nl; rfl
    | ok recs => exact processGroups_delete_fs _ _ _ _ _
  · decide

/-- C3: if some drop candidate of the group at the head of the remaining
group list does not resolve to an existing file, the run aborts there with
return code 4, logs the invalid path, and leaves the filesystem exactly as
it was when the group was reached (earlier disposals persist, no disposal
happens for this or any later group). -/
theorem C3_invalid_drop_aborts (h : String) (paths : List Path)
    (rest : List (String × List Path)) (dry : Bool) (sd : Path)
    (md : Option Path) (fs : FS) (log : List Entry)
    (hlen : paths.length ≠ 1)
    (hinv : ∃ p ∈ dropsOf paths, (sd ++ p) ∉ fs) :
    ∃ q, q ∈ dropsOf paths ∧ (sd ++ q) ∉ fs ∧
      processGroups ((h, paths) :: rest) dry sd md fs log
        = (some 4, fs,
           log ++ (groupAnnounce dry h paths
             ++ [(Sev.error, Msg.invalidPath (sd ++ q))])) :=
  processGroups_abort h paths rest dry sd md fs log hlen hinv

/-- C3 witness: a concrete group with a missing drop file aborts with
code 4 and an unchanged filesystem. -/
theorem C3_witness :
    ∃ q, q ∈ dropsOf [["a"], ["b"]] ∧ (["root"] ++ q) ∉ ([] : FS) ∧
      processGroups [("x", [["a"], ["b"]])] false ["root"] none [] []
        = (some 4, [],
           [] ++ (groupAnnounce false "x" [["a"], ["b"]]
             ++ [(Sev.error, Msg.invalidPath (["root"] ++ q))])) :=
  C3_invalid_drop_aborts "x" [["a"], ["b"]] [] false ["root"] none [] []
    (by decide) ⟨["b"], by decide, by decide⟩

/-- C4: if any input line fails the grammar, the run returns code 3,
reports the 1-based number and content of the first failing line as the
only log entry, and leaves the filesystem untouched (no group is processed
or disposed). -/
theorem C4_parse_error_aborts (input : List String) (dry : Bool) (sd : Path)
    (md : Option Path) (fs : FS)
    (hbad : ∃ l ∈ input, parseLine l = none) :
    ∃ n line, 1 ≤ n ∧ input[n - 1]? = some line ∧ parseLine line = none ∧
      run input dry sd md fs
        = (some 3, fs, [(Sev.error, Msg.invalidInput n line)]) := by
  obtain ⟨i, line, hi, hbadl, heq⟩ := parseAll_first_error input 1 hbad
  refine ⟨i + 1, line, by omega, by simpa using hi, hbadl, ?_⟩
  rw [run.eq_def, heq]
  rw [Nat.add_comm]

/-- C4 witness: a run on a concrete input whose second line is malformed
returns code 3 and reports line 2. -/
theorem C4_witness :
    ∃ n line, 1 ≤ n ∧ (["ab (x)", "badline"])[n - 1]? = some line ∧
      parseLine line = none ∧
      run ["ab (x)", "badline"] false [] none []
        = (some 3, [], [(Sev.error, Msg.invalidInput n line)]) :=
  C4_parse_error_aborts ["ab (x)", "badline"] false [] none []
    ⟨"badline", by decide, by decide⟩

/-- C5 counterexample: when a group contains the same path twice (two
identical well-formed input records), the keeper also occurs in the drop
list, so keeper and drop list are not disjoint. -/
theorem C5_counterexample :
    keeperOf [["Inbox", "a.jpg"], ["Inbox", "a.jpg"]]
      ∈ dropsOf [["Inbox", "a.jpg"], ["Inbox", "a.jpg"]] := by
  decide

/-- C5 (amended): for every nonempty group, keeper-followed-by-drops is a
permutation of the group's members (each occurrence kept exactly once) and
the drop list has |group| - 1 elements; when the members are pairwise
distinct the keeper does not occur among the drops. -/
theorem C5_keep_drop_partition (l : List Path) (hne : l ≠ []) :
    List.Perm (keeperOf l :: dropsOf l) l ∧
    (dropsOf l).length = l.length - 1 ∧
    (l.Nodup → keeperOf l ∉ dropsOf l) := by
  have hperm := sortGroup_perm l
  have hne' : sortGroup l ≠ [] := by
    intro h0
    apply hne
    have h1 := hperm.symm
    rw [h0] at h1
    exact h1.eq_nil
  obtain ⟨a, t, hs⟩ := List.exists_cons_of_ne_nil hne'
  have hk : keeperOf l = a := by rw [keeperOf, hs]; rfl
  have hd : dropsOf l = t := by rw [dropsOf, hs]; rfl
  have hcons : keeperOf l :: dropsOf l = sortGroup l := by rw [hk, hd, hs]
  refine ⟨hcons ▸ hperm, ?_, ?_⟩
  · have hlen := hperm.length_eq
    rw [hs] at hlen
    rw [hd]
    simp only [List.length_cons] at hlen
    omega
  · intro hnd
    have hnds : (sortGroup l).Nodup := hperm.nodup_iff.mpr hnd
    rw [hs, List.nodup_cons] at hnds
    rw [hk, hd]
    exact hnds.1

/-- C5 witness: the amended partition invariant at a concrete two-member
group. -/
theorem C5_witness :
    List.Perm (keeperOf [["a"], ["b"]] :: dropsOf [["a"], ["b"]]) [["a"], ["b"]] ∧
    (dropsOf [["a"], ["b"]]).length = [["a"], ["b"]].length - 1 ∧
    ([["a"], ["b"]].Nodup → keeperOf [["a"], ["b"]] ∉ dropsOf [["a"], ["b"]]) :=
  C5_keep_drop_partition [["a"], ["b"]] (by decide)

/-- C6: the keep/drop announcement severity is warning exactly when the
keeper's immediate parent is `Sent` and some dropped member's is not
(otherwise informational), and the severity choice has no influence on the
return code, the filesystem, or the disposal log entries, which all come
from `groupDispose`, a function that never consults the severity. -/
theorem C6_warning_iff (l : List Path) (h : String) (dry : Bool) (sd : Path)
    (md : Option Path) (fs : FS) :
    (annSev l = Sev.warning ↔
      inSent (keeperOf l) = true ∧ ∃ p ∈ dropsOf l, inSent p = false) ∧
    (processGroup h l dry sd md fs).1 = (groupDispose l dry sd md fs).1 ∧
    (processGroup h l dry sd md fs).2.1 = (groupDispose l dry sd md fs).2.1 ∧
    (processGroup h l dry sd md fs).2.2
      = groupAnnounce dry h l ++ (groupDispose l dry sd md fs).2.2 := by
  refine ⟨⟨?_, ?_⟩, rfl, rfl, rfl⟩
  · intro hw
    rw [annSev, groupWarn_eq_false] at hw
    simp at hw
  · rintro ⟨h1, p, hp, h2⟩
    have hwf := groupWarn_eq_false l
    rw [groupWarn, h1, Bool.true_and] at hwf
    rw [List.any_eq_false] at hwf
    have := hwf p hp
    rw [h2] at this
    simp at this

/-- C7: a dry run never mutates the filesystem, while the keep/drop
decision is still computed by the same keeper/drops functions and logged
with the dry-run message template. -/
theorem C7_dry_run_preview :
    (∀ input sd md fs, (run input true sd md fs).2.1 = fs) ∧
    (∀ dry h l, groupAnnounce dry h l
      = [(annSev l, Msg.keepAnn dry h (keeperOf l)),
         (annSev l, Msg.dropAnn dry h (dropsOf l))]) := by
  refine ⟨?_, fun _ _ _ => rfl⟩
  intro input sd md fs
  rw [run.eq_def]
  cases hp : parseAll 1 input with
  | error nl => obtain ⟨n, l⟩ := nl; rfl
  | ok recs => exact processGroups_dry_fs _ _ _ _ _

/-- C8 counterexample: with source root `.` and move directory `Sent`, the
drop candidate `Sent/a.jpg` is "moved" onto itself, so after a successful
run its original resolved path still exists, refuting "the original
resolved path no longer exists post-run". -/
theorem C8_counterexample :
    (run ["h (a.jpg)", "h (Sent/a.jpg)"] false [] (some ["Sent"])
        [["a.jpg"], ["Sent", "a.jpg"]]).1 = none ∧
    ["Sent", "a.jpg"] ∈ (run ["h (a.jpg)", "h (Sent/a.jpg)"] false []
        (some ["Sent"]) [["a.jpg"], ["Sent", "a.jpg"]]).2.1 := by
  decide

/-- C8 (amended): with a move directory and no dry-run, a validated group
succeeds and its filesystem effect is exactly the left fold of
rename-steps (erase resolved source, create moveDir/basename) over the
drop list; a dropped member's original resolved path no longer exists
post-group unless it coincides with one of the group's move destinations. -/
theorem C8_move_renames (h : String) (l : List Path) (sd md : Path) (fs : FS)
    (hval : firstInvalid (dropsOf l) sd fs = none) :
    (processGroup h l false sd (some md) fs).1 = none ∧
    (processGroup h l false sd (some md) fs).2.1
      = moveFold (dropsOf l) sd md fs ∧
    (∀ p ∈ dropsOf l, (∀ q ∈ dropsOf l, md ++ [nameOf q] ≠ sd ++ p) →
      (sd ++ p) ∉ (processGroup h l false sd (some md) fs).2.1) := by
  have hgd : groupDispose l false sd (some md) fs
      = (none, moveFold (dropsOf l) sd md fs,
         (dropsOf l).map
           (fun p => (Sev.info, Msg.moving (sd ++ p) (md ++ [nameOf p])))) := by
    rw [groupDispose_eq_valid false (some md) hval]
    rfl
  refine ⟨?_, ?_, ?_⟩
  · rw [processGroup, hgd]
  · rw [processGroup, hgd]
  · intro p hp hne
    rw [processGroup, hgd]
    exact moveFold_not_mem (dropsOf l) fs hp hne

/-- C8 witness: a concrete validated move of `b` from `src` into `dst`. -/
theorem C8_witness :
    (processGroup "g" [["b"], ["a"]] false ["src"] (some ["dst"])
        [["src", "a"], ["src", "b"]]).1 = none ∧
    (processGroup "g" [["b"], ["a"]] false ["src"] (some ["dst"])
        [["src", "a"], ["src", "b"]]).2.1
      = moveFold (dropsOf [["b"], ["a"]]) ["src"] ["dst"]
          [["src", "a"], ["src", "b"]] ∧
    (∀ p ∈ dropsOf [["b"], ["a"]],
      (∀ q ∈ dropsOf [["b"], ["a"]], ["dst"] ++ [nameOf q] ≠ ["src"] ++ p) →
      (["src"] ++ p) ∉ (processGroup "g" [["b"], ["a"]] false ["src"]
          (some ["dst"]) [["src", "a"], ["src", "b"]]).2.1) :=
  C8_move_renames "g" [["b"], ["a"]] ["src"] ["dst"]
    [["src", "a"], ["src", "b"]] (by decide)

/-- C9: the warning branch is dead code: the warning condition is false
for every group, and no run ever emits a log entry at warning severity,
so the keep/drop announcement is always informational. -/
theorem C9_announcement_never_warning :
    (∀ l, groupWarn l = false) ∧
    (∀ input dry sd md fs m,
      (Sev.warning, m) ∉ (run input dry sd md fs).2.2) := by
  refine ⟨groupWarn_eq_false, ?_⟩
  intro input dry sd md fs m hmem
  rcases run_sev input dry sd md fs _ hmem with hs | hs <;> simp at hs

/-- C9 witness: the announcement of a concrete duplicate group is not
logged at warning severity. -/
theorem C9_witness :
    (Sev.warning, Msg.keepAnn false "aa" ["Inbox", "a.jpg"])
      ∉ (run ["aa (Inbox/b.jpg)", "aa (Inbox/a.jpg)"] false [] none
          [["Inbox", "a.jpg"], ["Inbox", "b.jpg"]]).2.2 :=
  C9_announcement_never_warning.2 ["aa (Inbox/b.jpg)", "aa (Inbox/a.jpg)"]
    false [] none [["Inbox", "a.jpg"], ["Inbox", "b.jpg"]]
    (Msg.keepAnn false "aa" ["Inbox", "a.jpg"])

/-- C10: validation runs even in dry-run mode: a dry run reaching a group
with a missing drop candidate returns code 4 (instead of completing the
preview) while still leaving the filesystem untouched. -/
theorem C10_dry_run_still_validates (sd : Path) (md : Option Path) (fs : FS)
    (h : String) (paths : List Path) (rest : List (String × List Path))
    (log : List Entry) (hlen : paths.length ≠ 1)
    (hinv : ∃ p ∈ dropsOf paths, (sd ++ p) ∉ fs) :
    (processGroups ((h, paths) :: rest) true sd md fs log).1 = some 4 ∧
    (processGroups ((h, paths) :: rest) true sd md fs log).2.1 = fs := by
  obtain ⟨q, hqm, hqn, heq⟩ :=
    processGroups_abort h paths rest true sd md fs log hlen hinv
  rw [heq]
  exact ⟨rfl, rfl⟩

/-- C10 witness: a concrete dry run whose group has a missing drop file
returns code 4 with the filesystem unchanged. -/
theorem C10_witness :
    (processGroups [("s", [["Sent", "a"], ["Sent", "b"]])] true [] none
        [["Sent", "a"]] []).1 = some 4 ∧
    (processGroups [("s", [["Sent", "a"], ["Sent", "b"]])] true [] none
        [["Sent", "a"]] []).2.1 = [["Sent", "a"]] :=
  C10_dry_run_still_validates [] none [["Sent", "a"]] "s"
    [["Sent", "a"], ["Sent", "b"]] [] [] (by decide)
    ⟨["Sent", "b"], by decide, by decide⟩

end Dedup
